import Mathlib

/-!
# Verification of the endgame sequence-count estimator

Shallow embedding of `scripts/endgame_counts.py` over the real numbers:
the depth-dependent logistic branching-factor model, the log-space product
`modeled_count`, the four-axis grid-search fitter `fit_parameters`, the
report builder `render_table` and the CSV export `save_csv`.

Python floats are embedded as real numbers; `np.isfinite` is identically
true in this idealisation, and float formatting of real-valued columns is
abstracted by a formatter argument where the CSV export is concerned.
-/

namespace EndgameCounts

/-- The published reference table `REFERENCE_COUNTS`
(`scripts/endgame_counts.py` lines 26-37): full moves `m` mapped to the
published maximum sequence count, embedded as an association list in the
source's literal order (ascending keys). -/
noncomputable def REFERENCE_COUNTS : List (ℕ × ℝ) :=
  [(5, 3775852872),
   (10, 7.30398216506453e16),
   (15, 1.51577893358687e23),
   (20, 7.69827064587585e28),
   (25, 1.42404361906059e34),
   (30, 1.21138616306393e39),
   (35, 5.51777898897728e43),
   (40, 1.49693269286536e48),
   (45, 2.61553428261307e52),
   (50, 3.12407154730694e56)]

/-- `plies(m) = 2 * m` (`scripts/endgame_counts.py` lines 39-41). -/
def plies (m_full_moves : ℕ) : ℕ := 2 * m_full_moves

/-- `logistic_g(i, L1, L2, i0, k) = L2 + (L1 - L2)/(1 + exp(k*(i - i0)))`
(`scripts/endgame_counts.py` lines 55-56). No clamping happens here. -/
noncomputable def logistic_g (i : ℕ) (L1 L2 i0 k : ℝ) : ℝ :=
  L2 + (L1 - L2) / (1 + Real.exp (k * ((i : ℝ) - i0)))

/-- The per-ply factor actually multiplied inside `modeled_count`
(`scripts/endgame_counts.py` lines 60-62): `logistic_g` with the
`if gi <= 1.0: gi = 1.0000001` clamp applied.  This is the spec's
`branchingFactor` operation. -/
noncomputable def branchingFactor (i : ℕ) (L1 L2 i0 k : ℝ) : ℝ :=
  if logistic_g i L1 L2 i0 k ≤ 1 then 1.0000001 else logistic_g i L1 L2 i0 k

/-- `modeled_count(N, L1, L2, i0, k)` (`scripts/endgame_counts.py`
lines 58-65): sums `log` of the clamped per-ply factor for `i = 1..N`
and exponentiates once (log-space accumulation). -/
noncomputable def modeled_count (N : ℕ) (L1 L2 i0 k : ℝ) : ℝ :=
  Real.exp (∑ i ∈ Finset.range N, Real.log (branchingFactor (i + 1) L1 L2 i0 k))

theorem one_lt_branchingFactor (i : ℕ) (L1 L2 i0 k : ℝ) :
    1 < branchingFactor i L1 L2 i0 k := by
  unfold branchingFactor
  split
  · norm_num
  · linarith [not_le.mp (by assumption : ¬ logistic_g i L1 L2 i0 k ≤ 1)]

theorem modeled_count_pos (N : ℕ) (L1 L2 i0 k : ℝ) :
    0 < modeled_count N L1 L2 i0 k :=
  Real.exp_pos _

theorem modeled_count_succ (N : ℕ) (L1 L2 i0 k : ℝ) :
    modeled_count (N + 1) L1 L2 i0 k =
      modeled_count N L1 L2 i0 k * branchingFactor (N + 1) L1 L2 i0 k := by
  unfold modeled_count
  rw [Finset.sum_range_succ, Real.exp_add,
    Real.exp_log (lt_trans one_pos (one_lt_branchingFactor (N + 1) L1 L2 i0 k))]

theorem modeled_count_strict_mono (N : ℕ) (L1 L2 i0 k : ℝ) :
    modeled_count N L1 L2 i0 k < modeled_count (N + 1) L1 L2 i0 k := by
  rw [modeled_count_succ]
  nth_rewrite 1 [← mul_one (modeled_count N L1 L2 i0 k)]
  exact mul_lt_mul_of_pos_left (one_lt_branchingFactor (N + 1) L1 L2 i0 k)
    (modeled_count_pos N L1 L2 i0 k)

theorem logistic_g_gt_L2 (i : ℕ) (L1 L2 i0 k : ℝ) (h : L2 < L1) :
    L2 < logistic_g i L1 L2 i0 k := by
  unfold logistic_g
  have hden : (0 : ℝ) < 1 + Real.exp (k * ((i : ℝ) - i0)) := by
    positivity
  have : 0 < (L1 - L2) / (1 + Real.exp (k * ((i : ℝ) - i0))) :=
    div_pos (by linarith) hden
  linarith

/-- A candidate parameter tuple `(L1, L2, i0, k)` of the grid search
(the Python code passes the four floats as a tuple). -/
structure Params where
  L1 : ℝ
  L2 : ℝ
  i0 : ℝ
  k : ℝ

/-- `np.linspace(a, b, n)`: `n` evenly spaced points `a + j*(b-a)/(n-1)`
for `j = 0..n-1`, exact over the reals. -/
noncomputable def linspace (a b : ℝ) (n : ℕ) : List ℝ :=
  (List.range n).map (fun j : ℕ => a + (j : ℝ) * ((b - a) / ((n : ℝ) - 1)))

/-- `L1_grid = np.linspace(8.0, 14.0, 13)` (`scripts/endgame_counts.py` line 69). -/
noncomputable def L1_grid : List ℝ := linspace 8 14 13

/-- `L2_grid = np.linspace(2.0, 5.5, 15)` (`scripts/endgame_counts.py` line 70). -/
noncomputable def L2_grid : List ℝ := linspace 2 5.5 15

/-- `i0_grid = np.linspace(20.0, 120.0, 21)` (`scripts/endgame_counts.py` line 71). -/
noncomputable def i0_grid : List ℝ := linspace 20 120 21

/-- `k_grid = np.linspace(0.01, 0.12, 12)` (`scripts/endgame_counts.py` line 72). -/
noncomputable def k_grid : List ℝ := linspace 0.01 0.12 12

/-- The nested enumeration of candidate tuples of `fit_parameters`
(`scripts/endgame_counts.py` lines 79-83): `L1` outermost, then `L2`
(skipping `L2 >= L1`), then `i0`, then `k`, in this fixed order. -/
noncomputable def candidates : List Params :=
  L1_grid.flatMap (fun L1 =>
    (L2_grid.filter (fun L2 => decide (L2 < L1))).flatMap (fun L2 =>
      i0_grid.flatMap (fun i0 =>
        k_grid.map (fun k => ⟨L1, L2, i0, k⟩))))

/-- `sorted(reference.keys())` (`scripts/endgame_counts.py` line 74):
the keys of the reference table in ascending order. -/
def sortedKeys (reference : List (ℕ × ℝ)) : List ℕ :=
  (reference.map Prod.fst).insertionSort (· ≤ ·)

/-- `reference[m]`: dictionary lookup, total with default 0 (never hit when
`m` is a key of `reference`, which is the only way the source uses it). -/
noncomputable def lookupD (reference : List (ℕ × ℝ)) (m : ℕ) : ℝ :=
  (reference.lookup m).getD 0

/-- The per-candidate feasibility check of `fit_parameters`
(`scripts/endgame_counts.py` lines 86-91): every reference entry's modeled
count must be finite and positive.  Over the reals finiteness is
identically true, so the check reduces to positivity. -/
def feasibleFor (reference : List (ℕ × ℝ)) (p : Params) : Prop :=
  ∀ m ∈ sortedKeys reference, 0 < modeled_count (plies m) p.L1 p.L2 p.i0 p.k

/-- `se = np.mean((logs_model - logs_ref)**2)` (`scripts/endgame_counts.py`
lines 93-94): mean squared error of the log modeled counts against the log
reference counts, over the sorted keys. -/
noncomputable def errOf (reference : List (ℕ × ℝ)) (p : Params) : ℝ :=
  ((sortedKeys reference).map (fun m =>
      (Real.log (modeled_count (plies m) p.L1 p.L2 p.i0 p.k) -
        Real.log (lookupD reference m)) ^ 2)).sum /
    ((sortedKeys reference).length : ℝ)

open Classical in
/-- One iteration of the `best`-tracking loop of `fit_parameters`
(`scripts/endgame_counts.py` lines 85-97): skip infeasible candidates,
otherwise update `best` when `se < best[0]` (with `best` starting at
`(inf, None)`, modeled as `none`, so the first feasible candidate always
updates). -/
noncomputable def fitStep (reference : List (ℕ × ℝ))
    (acc : Option (ℝ × Params)) (p : Params) : Option (ℝ × Params) :=
  if feasibleFor reference p then
    match acc with
    | none => some (errOf reference p, p)
    | some (b, q) =>
        if errOf reference p < b then some (errOf reference p, p) else some (b, q)
  else acc

/-- `fit_parameters(reference)` (`scripts/endgame_counts.py` lines 67-101):
grid search returning the best tuple, or `none` where the Python code
raises `RuntimeError` (`best[1] is None`). -/
noncomputable def fit_parameters (reference : List (ℕ × ℝ)) : Option Params :=
  (candidates.foldl (fitStep reference) none).map Prod.snd

/-- One output row of `render_table` (`scripts/endgame_counts.py`
lines 103-112): `(m, N, ref, mod, rel_err)`. -/
structure EvaluatedRow where
  full_moves : ℕ
  pliesN : ℕ
  reference_count : ℝ
  model_count : ℝ
  relative_error : ℝ

/-- `render_table(reference, params)` (`scripts/endgame_counts.py`
lines 103-112): one row per reference key, in ascending key order, with
`N = plies(m)`, the reference value passed through, the modeled count and
the relative error `abs(mod - ref) / ref`. -/
noncomputable def render_table (reference : List (ℕ × ℝ))
    (L1 L2 i0 k : ℝ) : List EvaluatedRow :=
  (sortedKeys reference).map (fun m =>
    ⟨m, plies m, lookupD reference m, modeled_count (plies m) L1 L2 i0 k,
      |modeled_count (plies m) L1 L2 i0 k - lookupD reference m| / lookupD reference m⟩)

theorem feasibleFor_always (reference : List (ℕ × ℝ)) (p : Params) :
    feasibleFor reference p :=
  fun m _ => modeled_count_pos (plies m) p.L1 p.L2 p.i0 p.k

open Classical in
theorem fitStep_some (reference : List (ℕ × ℝ)) (b : ℝ) (q p : Params) :
    fitStep reference (some (b, q)) p =
      if feasibleFor reference p ∧ errOf reference p < b then
        some (errOf reference p, p)
      else some (b, q) := by
  classical
  by_cases hf : feasibleFor reference p
  · by_cases hlt : errOf reference p < b
    · simp [fitStep, hf, hlt]
    · simp [fitStep, hf, hlt]
  · simp [fitStep, hf]

open Classical in
theorem fitStep_none (reference : List (ℕ × ℝ)) (p : Params) :
    fitStep reference none p =
      if feasibleFor reference p then some (errOf reference p, p) else none := by
  classical
  by_cases hf : feasibleFor reference p <;> simp [fitStep, hf]

theorem fitStep_some_isSome (reference : List (ℕ × ℝ)) (b : ℝ) (q p : Params) :
    ∃ y, fitStep reference (some (b, q)) p = some y := by
  classical
  rw [fitStep_some]
  by_cases hc : feasibleFor reference p ∧ errOf reference p < b
  · exact ⟨_, if_pos hc⟩
  · exact ⟨_, if_neg hc⟩

theorem fitStep_eq_none (reference : List (ℕ × ℝ)) (acc : Option (ℝ × Params))
    (p : Params) (h : fitStep reference acc p = none) :
    acc = none ∧ ¬ feasibleFor reference p := by
  classical
  cases acc with
  | none =>
      rw [fitStep_none] at h
      by_cases hf : feasibleFor reference p
      · rw [if_pos hf] at h; exact Option.noConfusion h
      · exact ⟨rfl, hf⟩
  | some x =>
      obtain ⟨b, q⟩ := x
      obtain ⟨y, hy⟩ := fitStep_some_isSome reference b q p
      rw [hy] at h
      exact Option.noConfusion h

theorem foldl_fitStep_ne_none (reference : List (ℕ × ℝ)) :
    ∀ (l : List Params) (x : ℝ × Params),
      l.foldl (fitStep reference) (some x) ≠ none := by
  intro l
  induction l with
  | nil => intro x h; exact Option.noConfusion h
  | cons p l ih =>
      intro x
      obtain ⟨b, q⟩ := x
      rw [List.foldl_cons]
      obtain ⟨y, hy⟩ := fitStep_some_isSome reference b q p
      rw [hy]
      exact ih y

theorem foldl_fitStep_eq_none_iff (reference : List (ℕ × ℝ)) (l : List Params) :
    l.foldl (fitStep reference) none = none ↔
      ∀ p ∈ l, ¬ feasibleFor reference p := by
  induction l with
  | nil => simp
  | cons p l ih =>
      classical
      rw [List.foldl_cons, fitStep_none]
      by_cases hf : feasibleFor reference p
      · rw [if_pos hf]
        simp only [List.mem_cons]
        constructor
        · intro h
          exact absurd h (foldl_fitStep_ne_none reference l _)
        · intro h
          exact absurd hf (h p (Or.inl rfl))
      · rw [if_neg hf, ih]
        constructor
        · intro h q hq
          rcases List.mem_cons.mp hq with rfl | hq
          · exact hf
          · exact h q hq
        · intro h q hq
          exact h q (List.mem_cons_of_mem _ hq)

theorem foldl_fitStep_mem (reference : List (ℕ × ℝ)) :
    ∀ (l : List Params) (acc : Option (ℝ × Params)) (e : ℝ) (p : Params),
      l.foldl (fitStep reference) acc = some (e, p) →
      acc = some (e, p) ∨
        (p ∈ l ∧ feasibleFor reference p ∧ e = errOf reference p) := by
  intro l
  induction l with
  | nil => intro acc e p h; exact Or.inl h
  | cons r l ih =>
      classical
      intro acc e p h
      rw [List.foldl_cons] at h
      rcases ih _ e p h with hstep | ⟨hmem, hfe, herr⟩
      · cases acc with
        | none =>
            rw [fitStep_none] at hstep
            by_cases hf : feasibleFor reference r
            · rw [if_pos hf] at hstep
              obtain ⟨h1, h2⟩ : errOf reference r = e ∧ r = p := by
                simpa using hstep
              subst h2
              exact Or.inr ⟨List.mem_cons_self _ _, hf, h1.symm⟩
            · rw [if_neg hf] at hstep
              exact Option.noConfusion hstep
        | some x =>
            obtain ⟨b, q⟩ := x
            rw [fitStep_some] at hstep
            by_cases hc : feasibleFor reference r ∧ errOf reference r < b
            · rw [if_pos hc] at hstep
              obtain ⟨h1, h2⟩ : errOf reference r = e ∧ r = p := by
                simpa using hstep
              subst h2
              exact Or.inr ⟨List.mem_cons_self _ _, hc.1, h1.symm⟩
            · rw [if_neg hc] at hstep
              exact Or.inl hstep
      · exact Or.inr ⟨List.mem_cons_of_mem _ hmem, hfe, herr⟩

theorem fitStep_le (reference : List (ℕ × ℝ)) (acc : Option (ℝ × Params))
    (r : Params) (b1 : ℝ) (q1 : Params)
    (hs : fitStep reference acc r = some (b1, q1)) :
    (feasibleFor reference r → b1 ≤ errOf reference r) ∧
      (∀ b q0, acc = some (b, q0) → b1 ≤ b) := by
  classical
  cases acc with
  | none =>
      rw [fitStep_none] at hs
      by_cases hf : feasibleFor reference r
      · rw [if_pos hf] at hs
        obtain ⟨h1, h2⟩ : errOf reference r = b1 ∧ r = q1 := by simpa using hs
        exact ⟨fun _ => le_of_eq h1.symm, fun b q0 hacc => Option.noConfusion hacc⟩
      · rw [if_neg hf] at hs
        exact Option.noConfusion hs
  | some x =>
      obtain ⟨b, q⟩ := x
      rw [fitStep_some] at hs
      by_cases hc : feasibleFor reference r ∧ errOf reference r < b
      · rw [if_pos hc] at hs
        obtain ⟨h1, h2⟩ : errOf reference r = b1 ∧ r = q1 := by simpa using hs
        refine ⟨fun _ => le_of_eq h1.symm, ?_⟩
        intro b2 q0 hacc
        obtain ⟨hb, hq⟩ : b = b2 ∧ q = q0 := by simpa using hacc
        rw [← h1, ← hb]
        exact le_of_lt hc.2
      · rw [if_neg hc] at hs
        obtain ⟨h1, h2⟩ : b = b1 ∧ q = q1 := by simpa using hs
        constructor
        · intro hfr
          have hnlt : ¬ errOf reference r < b := fun hlt => hc ⟨hfr, hlt⟩
          rw [← h1]
          exact le_of_not_lt hnlt
        · intro b2 q0 hacc
          obtain ⟨hb, hq⟩ : b = b2 ∧ q = q0 := by simpa using hacc
          rw [← h1, hb]

theorem foldl_fitStep_min (reference : List (ℕ × ℝ)) :
    ∀ (l : List Params) (acc : Option (ℝ × Params)) (e : ℝ) (p : Params),
      l.foldl (fitStep reference) acc = some (e, p) →
      (∀ q ∈ l, feasibleFor reference q → e ≤ errOf reference q) ∧
        (∀ b q0, acc = some (b, q0) → e ≤ b) := by
  intro l
  induction l with
  | nil =>
      intro acc e p h
      simp only [List.foldl_nil] at h
      refine ⟨by simp, ?_⟩
      intro b q0 hacc
      rw [h] at hacc
      obtain ⟨h1, h2⟩ : e = b ∧ p = q0 := by simpa using hacc
      exact le_of_eq h1
  | cons r l ih =>
      intro acc e p h
      rw [List.foldl_cons] at h
      have hih := ih (fitStep reference acc r) e p h
      constructor
      · intro q hq hfq
        rcases List.mem_cons.mp hq with rfl | hq2
        · cases hacc2 : fitStep reference acc q with
          | none =>
              exact absurd (fitStep_eq_none reference acc q hacc2).2 (by simp [hfq])
          | some x =>
              obtain ⟨b1, q1⟩ := x
              exact le_trans (hih.2 b1 q1 hacc2)
                ((fitStep_le reference acc q b1 q1 hacc2).1 hfq)
        · exact hih.1 q hq2 hfq
      · intro b q0 hacc
        cases hacc2 : fitStep reference acc r with
        | none =>
            rw [hacc] at hacc2
            obtain ⟨habs, _⟩ := fitStep_eq_none reference _ r hacc2
            exact Option.noConfusion habs
        | some x =>
            obtain ⟨b1, q1⟩ := x
            exact le_trans (hih.2 b1 q1 hacc2)
              ((fitStep_le reference acc r b1 q1 hacc2).2 b q0 hacc)

theorem foldl_fitStep_first (reference : List (ℕ × ℝ)) :
    ∀ (l : List Params) (acc : Option (ℝ × Params)) (e : ℝ) (p : Params),
      l.foldl (fitStep reference) acc = some (e, p) →
      (acc = some (e, p) ∧ ∀ q ∈ l, feasibleFor reference q → e ≤ errOf reference q)
      ∨ (∃ l1 l2, l = l1 ++ p :: l2 ∧ feasibleFor reference p ∧
          e = errOf reference p ∧
          (∀ b q0, acc = some (b, q0) → e < b) ∧
          (∀ q ∈ l1, feasibleFor reference q → e < errOf reference q)) := by
  intro l
  induction l with
  | nil =>
      intro acc e p h
      simp only [List.foldl_nil] at h
      exact Or.inl ⟨h, by simp⟩
  | cons r l ih =>
      classical
      intro acc e p h
      rw [List.foldl_cons] at h
      rcases ih (fitStep reference acc r) e p h with
        ⟨hacc1, hmin⟩ | ⟨l1, l2, hsplit, hfp, herr, haccs, hl1⟩
      · cases acc with
        | none =>
            rw [fitStep_none] at hacc1
            by_cases hf : feasibleFor reference r
            · rw [if_pos hf] at hacc1
              obtain ⟨h1, h2⟩ : errOf reference r = e ∧ r = p := by simpa using hacc1
              subst h2
              exact Or.inr ⟨[], l, rfl, hf, h1.symm, by simp, by simp⟩
            · rw [if_neg hf] at hacc1
              exact Option.noConfusion hacc1
        | some x =>
            obtain ⟨b, q⟩ := x
            rw [fitStep_some] at hacc1
            by_cases hc : feasibleFor reference r ∧ errOf reference r < b
            · rw [if_pos hc] at hacc1
              obtain ⟨h1, h2⟩ : errOf reference r = e ∧ r = p := by simpa using hacc1
              subst h2
              refine Or.inr ⟨[], l, rfl, hc.1, h1.symm, ?_, by simp⟩
              intro b2 q0 hacc
              obtain ⟨hb, hq⟩ : b = b2 ∧ q = q0 := by simpa using hacc
              rw [← h1, ← hb]
              exact hc.2
            · rw [if_neg hc] at hacc1
              obtain ⟨h1, h2⟩ : b = e ∧ q = p := by simpa using hacc1
              refine Or.inl ⟨by rw [h1, h2], ?_⟩
              intro q2 hq2 hfq2
              rcases List.mem_cons.mp hq2 with rfl | hq3
              · have hnlt : ¬ errOf reference q2 < b := fun hlt => hc ⟨hfq2, hlt⟩
                rw [← h1]
                exact le_of_not_lt hnlt
              · exact hmin q2 hq3 hfq2
      · refine Or.inr ⟨r :: l1, l2, by rw [hsplit]; rfl, hfp, herr, ?_, ?_⟩
        · intro b q0 hacc
          subst hacc
          obtain ⟨⟨b1, q1⟩, hy⟩ := fitStep_some_isSome reference b q0 r
          have he1 := haccs b1 q1 hy
          have hle := (fitStep_le reference _ r b1 q1 hy).2 b q0 rfl
          exact lt_of_lt_of_le he1 hle
        · intro q hq hfq
          rcases List.mem_cons.mp hq with rfl | hq2
          · cases hacc2 : fitStep reference acc q with
            | none =>
                exact absurd (fitStep_eq_none reference acc q hacc2).2 (by simp [hfq])
            | some x =>
                obtain ⟨b1, q1⟩ := x
                have he1 := haccs b1 q1 hacc2
                have hle := (fitStep_le reference acc q b1 q1 hacc2).1 hfq
                exact lt_of_lt_of_le he1 hle
          · exact hl1 q hq2 hfq

theorem self_mem_linspace (a b : ℝ) (n : ℕ) (hn : 0 < n) : a ∈ linspace a b n := by
  unfold linspace
  exact List.mem_map.mpr ⟨0, List.mem_range.mpr hn, by norm_num⟩

theorem mem_linspace_lower (a b : ℝ) (n : ℕ) (x : ℝ) (hab : a ≤ b) (hn : 1 ≤ n)
    (hx : x ∈ linspace a b n) : a ≤ x := by
  unfold linspace at hx
  obtain ⟨j, hj, rfl⟩ := List.mem_map.mp hx
  have h1 : (0 : ℝ) ≤ (j : ℝ) := Nat.cast_nonneg j
  have hn1 : (1 : ℝ) ≤ (n : ℝ) := by exact_mod_cast hn
  have h2 : (0 : ℝ) ≤ (b - a) / ((n : ℝ) - 1) := by
    rcases eq_or_lt_of_le hn1 with heq | hlt
    · rw [← heq]
      norm_num
    · exact div_nonneg (by linarith) (by linarith)
  nlinarith [mul_nonneg h1 h2]

theorem mem_candidates_iff (p : Params) :
    p ∈ candidates ↔
      p.L1 ∈ L1_grid ∧ p.L2 ∈ L2_grid ∧ p.L2 < p.L1 ∧
        p.i0 ∈ i0_grid ∧ p.k ∈ k_grid := by
  obtain ⟨l1, l2, i0, k⟩ := p
  unfold candidates
  simp only [List.mem_flatMap, List.mem_filter, List.mem_map, decide_eq_true_eq,
    Params.mk.injEq]
  constructor
  · rintro ⟨a, ha, b, ⟨hb, hba⟩, c, hc, d, hd, rfl, rfl, rfl, rfl⟩
    exact ⟨ha, hb, hba, hc, hd⟩
  · rintro ⟨h1, h2, h3, h4, h5⟩
    exact ⟨l1, h1, l2, ⟨h2, h3⟩, i0, h4, k, ⟨h5, rfl, rfl, rfl, rfl⟩⟩

theorem candidates_bounds (p : Params) (hp : p ∈ candidates) :
    8 ≤ p.L1 ∧ 2 ≤ p.L2 ∧ p.L2 < p.L1 := by
  obtain ⟨h1, h2, h3, _, _⟩ := (mem_candidates_iff p).mp hp
  exact ⟨mem_linspace_lower 8 14 13 p.L1 (by norm_num) (by norm_num) h1,
    mem_linspace_lower 2 5.5 15 p.L2 (by norm_num) (by norm_num) h2, h3⟩

theorem first_candidate_mem : (⟨8, 2, 20, 0.01⟩ : Params) ∈ candidates :=
  (mem_candidates_iff _).mpr
    ⟨self_mem_linspace 8 14 13 (by norm_num),
     self_mem_linspace 2 5.5 15 (by norm_num), by norm_num,
     self_mem_linspace 20 120 21 (by norm_num),
     self_mem_linspace 0.01 0.12 12 (by norm_num)⟩

/-- C3: for every parameter tuple, valid or not, and every ply index
`i ≥ 1`, the per-ply branching factor is the logistic value
`L2 + (L1 - L2)/(1 + e^(k*(i - i0)))` clamped to the floor
`1.0000001 = 1 + 1e-7` whenever that value is `≤ 1`, so the factor is
strictly greater than `1` regardless of parameter values. -/
theorem branchingFactor_clamped_gt_one (L1 L2 i0 k : ℝ) (i : ℕ) (hi : 1 ≤ i) :
    (logistic_g i L1 L2 i0 k ≤ 1 → branchingFactor i L1 L2 i0 k = 1.0000001) ∧
    (1 < logistic_g i L1 L2 i0 k →
      branchingFactor i L1 L2 i0 k = logistic_g i L1 L2 i0 k) ∧
    1 < branchingFactor i L1 L2 i0 k := by
  refine ⟨fun h => ?_, fun h => ?_, one_lt_branchingFactor i L1 L2 i0 k⟩
  · unfold branchingFactor
    exact if_pos h
  · unfold branchingFactor
    exact if_neg (not_le.mpr h)

/-- Witness for C3: the clamp characterisation evaluated at
`L1 = 0.5, L2 = 0.5, i0 = 10, k = 0.02, i = 1`. -/
theorem branchingFactor_clamped_gt_one_witness :
    (1 : ℕ) ≤ 1 ∧
      ((logistic_g 1 0.5 0.5 10 0.02 ≤ 1 →
          branchingFactor 1 0.5 0.5 10 0.02 = 1.0000001) ∧
        (1 < logistic_g 1 0.5 0.5 10 0.02 →
          branchingFactor 1 0.5 0.5 10 0.02 = logistic_g 1 0.5 0.5 10 0.02) ∧
        1 < branchingFactor 1 0.5 0.5 10 0.02) :=
  ⟨le_refl 1, branchingFactor_clamped_gt_one 0.5 0.5 10 0.02 1 (le_refl 1)⟩

/-- C2: for every valid parameter tuple (`L1 > L2 > 1`, `i0 > 0`, `k > 0`)
and every ply count `N ≥ 1`, the modeled count is positive (finiteness is
automatic in the real-number embedding) and strictly increasing in `N`. -/
theorem modeled_count_pos_strict_mono (L1 L2 i0 k : ℝ) (h2 : 1 < L2)
    (h21 : L2 < L1) (hi0 : 0 < i0) (hk : 0 < k) (N : ℕ) (hN : 1 ≤ N) :
    0 < modeled_count N L1 L2 i0 k ∧
      modeled_count N L1 L2 i0 k < modeled_count (N + 1) L1 L2 i0 k :=
  ⟨modeled_count_pos N L1 L2 i0 k, modeled_count_strict_mono N L1 L2 i0 k⟩

/-- Witness for C2: positivity and strict growth at
`L1 = 10, L2 = 3, i0 = 50, k = 0.05, N = 1`. -/
theorem modeled_count_pos_strict_mono_witness :
    0 < modeled_count 1 10 3 50 0.05 ∧
      modeled_count 1 10 3 50 0.05 < modeled_count 2 10 3 50 0.05 :=
  modeled_count_pos_strict_mono 10 3 50 0.05 (by norm_num) (by norm_num)
    (by norm_num) (by norm_num) 1 (le_refl 1)

/-- C9: for every valid parameter tuple, the modeled count over zero plies
is the empty product, `1`. -/
theorem modeled_count_zero (L1 L2 i0 k : ℝ) (h2 : 1 < L2) (h21 : L2 < L1)
    (hi0 : 0 < i0) (hk : 0 < k) : modeled_count 0 L1 L2 i0 k = 1 := by
  unfold modeled_count
  simp

/-- Witness for C9: the empty product at `L1 = 10, L2 = 3, i0 = 50, k = 0.05`. -/
theorem modeled_count_zero_witness : modeled_count 0 10 3 50 0.05 = 1 :=
  modeled_count_zero 10 3 50 0.05 (by norm_num) (by norm_num) (by norm_num)
    (by norm_num)

/-- C10: under the validity precondition `L1 > L2 > 1` the clamp branch of
`modeled_count` is unreachable: for every ply index `i ≥ 1` the raw
logistic value exceeds `L2 > 1`, the floor substitution is never applied,
and the modeled count equals the exact product of the unclamped logistic
factors. -/
theorem modeled_count_clamp_unreachable (L1 L2 i0 k : ℝ) (h2 : 1 < L2)
    (h21 : L2 < L1) :
    (∀ i : ℕ, 1 ≤ i →
      L2 < logistic_g i L1 L2 i0 k ∧ 1 < logistic_g i L1 L2 i0 k ∧
        branchingFactor i L1 L2 i0 k = logistic_g i L1 L2 i0 k) ∧
    (∀ N : ℕ, modeled_count N L1 L2 i0 k =
      ∏ i ∈ Finset.range N, logistic_g (i + 1) L1 L2 i0 k) := by
  have key : ∀ i : ℕ, L2 < logistic_g i L1 L2 i0 k := fun i =>
    logistic_g_gt_L2 i L1 L2 i0 k h21
  have hone : ∀ i : ℕ, 1 < logistic_g i L1 L2 i0 k := fun i =>
    lt_trans h2 (key i)
  have hbf : ∀ i : ℕ, branchingFactor i L1 L2 i0 k = logistic_g i L1 L2 i0 k := by
    intro i
    unfold branchingFactor
    exact if_neg (not_le.mpr (hone i))
  refine ⟨fun i _ => ⟨key i, hone i, hbf i⟩, fun N => ?_⟩
  unfold modeled_count
  rw [Real.exp_sum]
  refine Finset.prod_congr rfl fun i _ => ?_
  rw [hbf (i + 1)]
  exact Real.exp_log (lt_trans one_pos (hone (i + 1)))

/-- Witness for C10: the clamp is unreachable at
`L1 = 10, L2 = 3, i0 = 50, k = 0.05`. -/
theorem modeled_count_clamp_unreachable_witness :
    (∀ i : ℕ, 1 ≤ i →
      (3 : ℝ) < logistic_g i 10 3 50 0.05 ∧ 1 < logistic_g i 10 3 50 0.05 ∧
        branchingFactor i 10 3 50 0.05 = logistic_g i 10 3 50 0.05) ∧
    (∀ N : ℕ, modeled_count N 10 3 50 0.05 =
      ∏ i ∈ Finset.range N, logistic_g (i + 1) 10 3 50 0.05) :=
  modeled_count_clamp_unreachable 10 3 50 0.05 (by norm_num) (by norm_num)

/-- C1: for every reference table with at least one feasible candidate in
the fixed grid (13 `L1` points in `[8,14]`, 15 `L2` points in `[2,5.5]`
with `L2 < L1`, 21 `i0` points in `[20,120]`, 12 `k` points in
`[0.01,0.12]`), and at least one entry (excluding NumPy's NaN mean of an
empty array, which has no real counterpart), `fit_parameters` returns a feasible candidate whose mean
squared error of log modeled counts against log reference counts is at
most that of every feasible candidate, and it is the first such minimizer
in the nested enumeration order (`L1` outermost, then `L2`, `i0`, `k`). -/
theorem fit_parameters_first_min (reference : List (ℕ × ℝ))
    (h0 : reference ≠ []) (h : ∃ p ∈ candidates, feasibleFor reference p) :
    ∃ p, fit_parameters reference = some p ∧ feasibleFor reference p ∧
      (∀ q ∈ candidates, feasibleFor reference q →
        errOf reference p ≤ errOf reference q) ∧
      ∃ l1 l2, candidates = l1 ++ p :: l2 ∧
        (∀ q ∈ l1, feasibleFor reference q →
          errOf reference p < errOf reference q) := by
  have hne : candidates.foldl (fitStep reference) none ≠ none := by
    rw [Ne, foldl_fitStep_eq_none_iff]
    intro hall
    obtain ⟨p, hp, hf⟩ := h
    exact hall p hp hf
  obtain ⟨x, hx⟩ := Option.ne_none_iff_exists'.mp hne
  obtain ⟨e, p⟩ := x
  have hmin := foldl_fitStep_min reference candidates none e p hx
  have hfirst := foldl_fitStep_first reference candidates none e p hx
  rcases hfirst with ⟨habs, _⟩ | ⟨l1, l2, hsplit, hfp, herr, _, hl1⟩
  · exact Option.noConfusion habs
  · refine ⟨p, ?_, hfp, ?_, l1, l2, hsplit, ?_⟩
    · unfold fit_parameters
      rw [hx]
      rfl
    · intro q hq hfq
      exact herr ▸ hmin.1 q hq hfq
    · intro q hq hfq
      exact herr ▸ hl1 q hq hfq

/-- Witness for C1: the search over the published ten-entry reference
table succeeds, since the first grid candidate `(8, 2, 20, 0.01)` is
feasible. -/
theorem fit_parameters_first_min_witness :
    ∃ p, fit_parameters REFERENCE_COUNTS = some p ∧
      feasibleFor REFERENCE_COUNTS p ∧
      (∀ q ∈ candidates, feasibleFor REFERENCE_COUNTS q →
        errOf REFERENCE_COUNTS p ≤ errOf REFERENCE_COUNTS q) ∧
      ∃ l1 l2, candidates = l1 ++ p :: l2 ∧
        (∀ q ∈ l1, feasibleFor REFERENCE_COUNTS q →
          errOf REFERENCE_COUNTS p < errOf REFERENCE_COUNTS q) :=
  fit_parameters_first_min REFERENCE_COUNTS (by simp [REFERENCE_COUNTS])
    ⟨⟨8, 2, 20, 0.01⟩, first_candidate_mem,
      feasibleFor_always REFERENCE_COUNTS _⟩

/-- C4: for a nonempty reference table, `fit_parameters` fails (the
`RuntimeError` branch, modeled as `none`, which by construction carries no
parameters and no partial results) exactly when every candidate in the
grid is infeasible, and whenever some candidate is feasible it returns
parameters.  (The empty table is excluded: there `np.mean` of an empty
array is NaN, which has no real-number counterpart.) -/
theorem fit_parameters_none_iff (reference : List (ℕ × ℝ))
    (h : reference ≠ []) :
    (fit_parameters reference = none ↔
      ∀ p ∈ candidates, ¬ feasibleFor reference p) ∧
    ((∃ p ∈ candidates, feasibleFor reference p) →
      ∃ q, fit_parameters reference = some q) := by
  constructor
  · unfold fit_parameters
    rw [Option.map_eq_none']
    exact foldl_fitStep_eq_none_iff reference candidates
  · intro hex
    have hne : candidates.foldl (fitStep reference) none ≠ none := by
      rw [Ne, foldl_fitStep_eq_none_iff]
      intro hall
      obtain ⟨p, hp, hf⟩ := hex
      exact hall p hp hf
    obtain ⟨x, hx⟩ := Option.ne_none_iff_exists'.mp hne
    refine ⟨x.snd, ?_⟩
    unfold fit_parameters
    rw [hx]
    rfl

/-- Witness for C4: the failure dichotomy at the published ten-entry
reference table. -/
theorem fit_parameters_none_iff_witness :
    (fit_parameters REFERENCE_COUNTS = none ↔
      ∀ p ∈ candidates, ¬ feasibleFor REFERENCE_COUNTS p) ∧
    ((∃ p ∈ candidates, feasibleFor REFERENCE_COUNTS p) →
      ∃ q, fit_parameters REFERENCE_COUNTS = some q) :=
  fit_parameters_none_iff REFERENCE_COUNTS (by simp [REFERENCE_COUNTS])

/-- C5: whenever `fit_parameters` returns a tuple `(L1, L2, i0, k)`, it
satisfies `L2 < L1`, `L1 > 1` and `L2 > 1` (the grid keeps `L1 ≥ 8`,
`L2 ≥ 2` and filters `L2 ≥ L1` away). -/
theorem fit_parameters_valid (reference : List (ℕ × ℝ)) :
    (fit_parameters reference).elim True
      (fun p => p.L2 < p.L1 ∧ 1 < p.L1 ∧ 1 < p.L2) := by
  cases hfit : fit_parameters reference with
  | none => trivial
  | some p =>
      unfold fit_parameters at hfit
      rw [Option.map_eq_some'] at hfit
      obtain ⟨x, hx, hsnd⟩ := hfit
      obtain ⟨e, q⟩ := x
      rcases foldl_fitStep_mem reference candidates none e q hx with
        habs | ⟨hmem, _, _⟩
      · exact Option.noConfusion habs
      · have hb := candidates_bounds q hmem
        have hpq : q = p := hsnd
        subst hpq
        simp only [Option.elim]
        exact ⟨hb.2.2, by linarith [hb.1], by linarith [hb.2.1]⟩

/-- C7: `fit_parameters` is deterministic, a pure function of the
reference table and the fixed grid with no hidden state: identical inputs
give identical parameters. -/
theorem fit_parameters_deterministic (r1 r2 : List (ℕ × ℝ)) (h : r1 = r2) :
    fit_parameters r1 = fit_parameters r2 := by
  rw [h]

/-- Witness for C7: two calls on the published reference table agree. -/
theorem fit_parameters_deterministic_witness :
    fit_parameters REFERENCE_COUNTS = fit_parameters REFERENCE_COUNTS :=
  fit_parameters_deterministic REFERENCE_COUNTS REFERENCE_COUNTS rfl

theorem lookup_eq_of_mem (reference : List (ℕ × ℝ))
    (hnd : (reference.map Prod.fst).Nodup) (m : ℕ) (c : ℝ)
    (hmc : (m, c) ∈ reference) : reference.lookup m = some c := by
  induction reference with
  | nil => cases hmc
  | cons hd tl ih =>
      obtain ⟨a, b⟩ := hd
      rw [List.map_cons, List.nodup_cons] at hnd
      rcases List.mem_cons.mp hmc with heq | hmem
      · obtain ⟨h1, h2⟩ : m = a ∧ c = b := by simpa using heq
        subst h1
        subst h2
        rw [List.lookup, beq_self_eq_true]
      · have hne : m ≠ a := by
          rintro rfl
          exact hnd.1 (List.mem_map.mpr ⟨(m, c), hmem, rfl⟩)
        rw [List.lookup, beq_false_of_ne hne]
        exact ih hnd.2 hmem

theorem mem_sortedKeys (reference : List (ℕ × ℝ)) (m : ℕ) :
    m ∈ sortedKeys reference ↔ m ∈ reference.map Prod.fst := by
  unfold sortedKeys
  exact List.Perm.mem_iff (List.perm_insertionSort _ _)

theorem sortedKeys_sorted (reference : List (ℕ × ℝ)) :
    List.Sorted (· ≤ ·) (sortedKeys reference) :=
  List.sorted_insertionSort _ _

theorem sortedKeys_length (reference : List (ℕ × ℝ)) :
    (sortedKeys reference).length = reference.length := by
  unfold sortedKeys
  rw [List.length_insertionSort, List.length_map]

/-- C6: for every reference dataset (with the distinct keys every
dictionary has) and every parameter tuple, `render_table` returns exactly
one row per entry, ordered by strictly ascending full-move count; each
row has `plies = 2 * full_moves`, the model count recomputed through
`modeled_count`, the relative error `|model - reference| / reference`,
and each dataset entry's value passed through unmodified; in particular
on the published table the row for `full_moves = 25` has `plies = 50` and
`reference_count = 1.42404361906059e34`. -/
theorem render_table_spec (reference : List (ℕ × ℝ)) (L1 L2 i0 k : ℝ)
    (hnd : (reference.map Prod.fst).Nodup) :
    (render_table reference L1 L2 i0 k).length = reference.length ∧
    List.Pairwise (fun r s => r.full_moves < s.full_moves)
      (render_table reference L1 L2 i0 k) ∧
    (∀ r ∈ render_table reference L1 L2 i0 k,
      r.pliesN = 2 * r.full_moves ∧
      r.model_count = modeled_count r.pliesN L1 L2 i0 k ∧
      r.relative_error = |r.model_count - r.reference_count| / r.reference_count) ∧
    (∀ mc ∈ reference,
      (⟨mc.1, 2 * mc.1, mc.2, modeled_count (2 * mc.1) L1 L2 i0 k,
        |modeled_count (2 * mc.1) L1 L2 i0 k - mc.2| / mc.2⟩ : EvaluatedRow) ∈
        render_table reference L1 L2 i0 k) ∧
    (∃ r ∈ render_table REFERENCE_COUNTS L1 L2 i0 k,
      r.full_moves = 25 ∧ r.pliesN = 50 ∧
      r.reference_count = 1.42404361906059e34) := by
  have hkeys_nodup : (sortedKeys reference).Nodup :=
    (List.Perm.nodup_iff (List.perm_insertionSort _ _)).mpr hnd
  refine ⟨?_, ?_, ?_, ?_, ?_⟩
  · unfold render_table
    rw [List.length_map, sortedKeys_length]
  · unfold render_table
    rw [List.pairwise_map]
    exact (sortedKeys_sorted reference).lt_of_le hkeys_nodup
  · intro r hr
    unfold render_table at hr
    obtain ⟨m, _, rfl⟩ := List.mem_map.mp hr
    exact ⟨rfl, rfl, rfl⟩
  · intro mc hmc
    obtain ⟨m, c⟩ := mc
    have hm : m ∈ sortedKeys reference :=
      (mem_sortedKeys reference m).mpr (List.mem_map.mpr ⟨(m, c), hmc, rfl⟩)
    have hl : lookupD reference m = c := by
      unfold lookupD
      rw [lookup_eq_of_mem reference hnd m c hmc]
      rfl
    unfold render_table
    refine List.mem_map.mpr ⟨m, hm, ?_⟩
    rw [hl]
    rfl
  · have h25 : (25 : ℕ) ∈ sortedKeys REFERENCE_COUNTS := by
      rw [mem_sortedKeys]
      simp [REFERENCE_COUNTS]
    refine ⟨_, List.mem_map.mpr ⟨25, h25, rfl⟩, rfl, rfl, ?_⟩
    show lookupD REFERENCE_COUNTS 25 = 1.42404361906059e34
    unfold lookupD REFERENCE_COUNTS
    rw [List.lookup, beq_false_of_ne (by norm_num : (25 : ℕ) ≠ 5),
      List.lookup, beq_false_of_ne (by norm_num : (25 : ℕ) ≠ 10),
      List.lookup, beq_false_of_ne (by norm_num : (25 : ℕ) ≠ 15),
      List.lookup, beq_false_of_ne (by norm_num : (25 : ℕ) ≠ 20),
      List.lookup, beq_self_eq_true]
    rfl

/-- Witness for C6: the report shape on the published reference table at
`L1 = 10, L2 = 3, i0 = 50, k = 0.05`. -/
theorem render_table_spec_witness :
    (render_table REFERENCE_COUNTS 10 3 50 0.05).length =
        REFERENCE_COUNTS.length ∧
    List.Pairwise (fun r s => r.full_moves < s.full_moves)
      (render_table REFERENCE_COUNTS 10 3 50 0.05) ∧
    (∀ r ∈ render_table REFERENCE_COUNTS 10 3 50 0.05,
      r.pliesN = 2 * r.full_moves ∧
      r.model_count = modeled_count r.pliesN 10 3 50 0.05 ∧
      r.relative_error = |r.model_count - r.reference_count| / r.reference_count) ∧
    (∀ mc ∈ REFERENCE_COUNTS,
      (⟨mc.1, 2 * mc.1, mc.2, modeled_count (2 * mc.1) 10 3 50 0.05,
        |modeled_count (2 * mc.1) 10 3 50 0.05 - mc.2| / mc.2⟩ : EvaluatedRow) ∈
        render_table REFERENCE_COUNTS 10 3 50 0.05) ∧
    (∃ r ∈ render_table REFERENCE_COUNTS 10 3 50 0.05,
      r.full_moves = 25 ∧ r.pliesN = 50 ∧
      r.reference_count = 1.42404361906059e34) :=
  render_table_spec REFERENCE_COUNTS 10 3 50 0.05 (by
    have : REFERENCE_COUNTS.map Prod.fst = [5, 10, 15, 20, 25, 30, 35, 40, 45, 50] := by
      unfold REFERENCE_COUNTS
      rfl
    rw [this]
    decide)

/-- Decimal rendering of a natural number (the embedding of Python's
integer formatting in the f-string of `save_csv`,
`scripts/endgame_counts.py` line 118): most significant digit first,
with `0` rendered as `"0"`. -/
def natChars (n : ℕ) : List Char :=
  if n = 0 then ['0'] else ((Nat.digits 10 n).map Nat.digitChar).reverse

/-- Numeric value of a decimal digit character. -/
def digitVal (c : Char) : ℕ := c.toNat - 48

/-- Parse a nonempty all-digit character list as a decimal natural. -/
def parseNatD (cs : List Char) : Option ℕ :=
  if cs ≠ [] ∧ cs.all Char.isDigit = true then
    some (cs.foldl (fun a c => 10 * a + digitVal c) 0)
  else none

theorem digitChar_facts :
    ∀ d : ℕ, d < 10 → (Nat.digitChar d).isDigit = true ∧
      digitVal (Nat.digitChar d) = d ∧ Nat.digitChar d ≠ ',' := by
  decide

theorem natChars_all_digits (n : ℕ) :
    ∀ c ∈ natChars n, c.isDigit = true := by
  intro c hc
  unfold natChars at hc
  split at hc
  · obtain rfl : c = '0' := by simpa using hc
    decide
  · rw [List.mem_reverse] at hc
    obtain ⟨d, hd, rfl⟩ := List.mem_map.mp hc
    exact (digitChar_facts d (Nat.digits_lt_base (by norm_num) hd)).1

theorem comma_not_mem_natChars (n : ℕ) : ',' ∉ natChars n := by
  intro h
  have := natChars_all_digits n ',' h
  simp [Char.isDigit] at this

theorem natChars_ne_nil (n : ℕ) : natChars n ≠ [] := by
  unfold natChars
  split
  · simp
  · rw [← List.length_pos_iff_ne_nil, List.length_reverse, List.length_map]
    rw [List.length_pos_iff_ne_nil]
    exact Nat.digits_ne_nil_iff_ne_zero.mpr (by assumption)

theorem foldl_parse_digits (l : List ℕ) (hl : ∀ d ∈ l, d < 10) (a : ℕ) :
    ((l.map Nat.digitChar).reverse).foldl (fun b c => 10 * b + digitVal c) a =
      a * 10 ^ l.length + Nat.ofDigits 10 l := by
  induction l generalizing a with
  | nil => simp
  | cons d l ih =>
      rw [List.map_cons, List.reverse_cons, List.foldl_append]
      rw [ih (fun e he => hl e (List.mem_cons_of_mem d he))]
      simp only [List.foldl_cons, List.foldl_nil]
      rw [(digitChar_facts d (hl d (List.mem_cons_self d l))).2.1]
      rw [Nat.ofDigits_cons, List.length_cons, pow_succ]
      ring

theorem parseNatD_natChars (n : ℕ) : parseNatD (natChars n) = some n := by
  unfold parseNatD
  rw [if_pos ⟨natChars_ne_nil n, List.all_eq_true.mpr (natChars_all_digits n)⟩]
  congr 1
  by_cases hn : n = 0
  · subst hn
    rfl
  · unfold natChars
    rw [if_neg hn]
    rw [foldl_parse_digits (Nat.digits 10 n)
      (fun d hd => Nat.digits_lt_base (by norm_num) hd) 0]
    rw [Nat.ofDigits_digits]
    ring

/-- Join fields with comma separators (the structure of one data line of
`save_csv`, `scripts/endgame_counts.py` line 118). -/
def joinComma : List (List Char) → List Char
  | [] => []
  | [f] => f
  | f :: g :: fs => f ++ ',' :: joinComma (g :: fs)

/-- Split a character list at comma separators. -/
def splitComma : List Char → List (List Char)
  | [] => [[]]
  | c :: cs =>
      match splitComma cs with
      | [] => [[]]
      | f :: fs => if c = ',' then [] :: f :: fs else (c :: f) :: fs

theorem splitComma_ne_nil (cs : List Char) : splitComma cs ≠ [] := by
  cases cs with
  | nil => simp [splitComma]
  | cons c cs =>
      unfold splitComma
      cases splitComma cs with
      | nil => simp
      | cons f fs =>
          by_cases hc : c = ','
          · simp [hc]
          · simp [hc]

theorem splitComma_no_comma (f : List Char) (hf : ',' ∉ f) :
    splitComma f = [f] := by
  induction f with
  | nil => rfl
  | cons c f ih =>
      have hc : c ≠ ',' := fun h => hf (h ▸ List.mem_cons_self c f)
      have hf2 : ',' ∉ f := fun h => hf (List.mem_cons_of_mem c h)
      conv_lhs => rw [splitComma]
      rw [ih hf2]
      simp [hc]

theorem splitComma_append (f rest : List Char) (hf : ',' ∉ f) :
    splitComma (f ++ ',' :: rest) = f :: splitComma rest := by
  induction f with
  | nil =>
      simp only [List.nil_append]
      obtain ⟨r, rs, hr⟩ := List.exists_cons_of_ne_nil (splitComma_ne_nil rest)
      conv_lhs => rw [splitComma]
      rw [hr]
      simp
  | cons c f ih =>
      have hc : c ≠ ',' := fun h => hf (h ▸ List.mem_cons_self c f)
      have hf2 : ',' ∉ f := fun h => hf (List.mem_cons_of_mem c h)
      rw [List.cons_append]
      conv_lhs => rw [splitComma]
      rw [ih hf2]
      simp [hc]

theorem splitComma_joinComma :
    ∀ (fs : List (List Char)), fs ≠ [] → (∀ f ∈ fs, ',' ∉ f) →
      splitComma (joinComma fs) = fs := by
  intro fs
  induction fs with
  | nil => intro h; exact absurd rfl h
  | cons f fs ih =>
      intro _ hall
      cases fs with
      | nil =>
          show splitComma (joinComma [f]) = [f]
          unfold joinComma
          exact splitComma_no_comma f (hall f (List.mem_cons_self f []))
      | cons g gs =>
          show splitComma (joinComma (f :: g :: gs)) = f :: g :: gs
          unfold joinComma
          rw [splitComma_append f _ (hall f (List.mem_cons_self f _))]
          rw [ih (by simp) (fun e he => hall e (List.mem_cons_of_mem f he))]

/-- The five comma-separated fields of one data line of `save_csv`
(`scripts/endgame_counts.py` line 118): `m`, `N`, then the three
real-valued columns.  The `%.12e` / `%.6e` float formatting has no exact
real-number counterpart, so the two formatters are abstracted as
arguments (`fmtc` for the 12-digit count columns, `fmte` for the 6-digit
error column). -/
def csvFields (fmtc fmte : ℝ → List Char) (r : EvaluatedRow) :
    List (List Char) :=
  [natChars r.full_moves, natChars r.pliesN, fmtc r.reference_count,
    fmtc r.model_count, fmte r.relative_error]

/-- `save_csv(rows, ...)` (`scripts/endgame_counts.py` lines 114-119) as
the list of lines written: the literal header, then one comma-joined line
per row. -/
def save_csv (fmtc fmte : ℝ → List Char) (rows : List EvaluatedRow) :
    List String :=
  "full_moves,plies,reference_count,model_count,relative_error" ::
    rows.map (fun r => String.mk (joinComma (csvFields fmtc fmte r)))

/-- Parse one data line back: split at commas and read the first two
fields as decimal naturals. -/
def parsePair (line : String) : Option (ℕ × ℕ) :=
  match splitComma line.data with
  | mf :: pf :: _ =>
      match parseNatD mf, parseNatD pf with
      | some m, some p => some (m, p)
      | _, _ => none
  | _ => none

/-- Parse an exported table back: drop the header, parse each data line. -/
def parsePairs (lines : List String) : List (ℕ × ℕ) :=
  (lines.drop 1).filterMap parsePair

theorem parsePair_line (fmtc fmte : ℝ → List Char)
    (hc : ∀ x, ',' ∉ fmtc x) (he : ∀ x, ',' ∉ fmte x) (r : EvaluatedRow) :
    parsePair (String.mk (joinComma (csvFields fmtc fmte r))) =
      some (r.full_moves, r.pliesN) := by
  unfold parsePair
  have hdata : (String.mk (joinComma (csvFields fmtc fmte r))).data =
      joinComma (csvFields fmtc fmte r) := rfl
  rw [hdata]
  have hsplit : splitComma (joinComma (csvFields fmtc fmte r)) =
      csvFields fmtc fmte r := by
    refine splitComma_joinComma _ (by simp [csvFields]) ?_
    intro f hf
    unfold csvFields at hf
    simp only [List.mem_cons, List.not_mem_nil, or_false] at hf
    rcases hf with rfl | rfl | rfl | rfl | rfl
    · exact comma_not_mem_natChars _
    · exact comma_not_mem_natChars _
    · exact hc _
    · exact hc _
    · exact he _
  rw [hsplit]
  unfold csvFields
  simp [parseNatD_natChars]

/-- C8: round trip of the tabular export.  For every report row sequence
and any comma-free rendering of the real-valued columns, the first
exported line is the literal header, parsing the exported lines back
yields each row's `(full_moves, plies)` pair in order, and when the rows
come from `render_table` those pairs are exactly the dataset's entries
`(m, plies m)` in ascending key order. -/
theorem save_csv_roundtrip (fmtc fmte : ℝ → List Char)
    (hc : ∀ x, ',' ∉ fmtc x) (he : ∀ x, ',' ∉ fmte x)
    (rows : List EvaluatedRow) (reference : List (ℕ × ℝ)) (L1 L2 i0 k : ℝ) :
    (save_csv fmtc fmte rows).head? =
      some "full_moves,plies,reference_count,model_count,relative_error" ∧
    parsePairs (save_csv fmtc fmte rows) =
      rows.map (fun r => (r.full_moves, r.pliesN)) ∧
    (rows = render_table reference L1 L2 i0 k →
      parsePairs (save_csv fmtc fmte rows) =
        (sortedKeys reference).map (fun m => (m, plies m))) := by
  have hparse : parsePairs (save_csv fmtc fmte rows) =
      rows.map (fun r => (r.full_moves, r.pliesN)) := by
    unfold parsePairs save_csv
    rw [List.drop_one, List.tail_cons, List.filterMap_map]
    induction rows with
    | nil => rfl
    | cons r rows ih =>
        rw [List.filterMap_cons, List.map_cons]
        have := parsePair_line fmtc fmte hc he r
        simp only [Function.comp_apply, this]
        rw [ih]
  refine ⟨rfl, hparse, ?_⟩
  intro hrows
  rw [hparse, hrows]
  unfold render_table
  rw [List.map_map]
  rfl

/-- Witness for C8: the round trip with a constant comma-free formatter
on the report of the published table at `L1 = 10, L2 = 3, i0 = 50,
k = 0.05`. -/
theorem save_csv_roundtrip_witness :
    ((save_csv (fun x => ['0']) (fun x => ['0'])
        (render_table REFERENCE_COUNTS 10 3 50 0.05)).head? =
      some "full_moves,plies,reference_count,model_count,relative_error") ∧
    (parsePairs (save_csv (fun x => ['0']) (fun x => ['0'])
        (render_table REFERENCE_COUNTS 10 3 50 0.05)) =
      (render_table REFERENCE_COUNTS 10 3 50 0.05).map
        (fun r => (r.full_moves, r.pliesN))) ∧
    ((render_table REFERENCE_COUNTS 10 3 50 0.05 =
        render_table REFERENCE_COUNTS 10 3 50 0.05) →
      parsePairs (save_csv (fun x => ['0']) (fun x => ['0'])
          (render_table REFERENCE_COUNTS 10 3 50 0.05)) =
        (sortedKeys REFERENCE_COUNTS).map (fun m => (m, plies m))) :=
  save_csv_roundtrip (fun x => ['0']) (fun x => ['0'])
    (fun x => by simp) (fun x => by simp)
    (render_table REFERENCE_COUNTS 10 3 50 0.05) REFERENCE_COUNTS 10 3 50 0.05

end EndgameCounts
